import Mathlib

/-!
# Verification of the LAROMANCE / generalized radial return headers

Shallow embedding of

* `ADLAROMANCEStressUpdateBase::trapezoidalRule`,
* `ADLAROMANCEStressUpdateBase::convertValue`,
* `ADGeneralizedRadialReturnStressUpdate::minimumPermissibleValue`,
* `ADGeneralizedRadialReturnStressUpdate::computeIntegrationErrorTimeStep`,

and models, taken from the specification, of `computePolynomial` and `computeTileWeight`, which
the headers only declare.

`Real` is embedded as an ordered field `K` with exact arithmetic (the statements are about the
exact-arithmetic behaviour of the algorithms, not about rounding), `std::size_t` as `Nat`.
-/

namespace Moose

/-- Fatal outcomes of the embedded functions: the `mooseError` of `trapezoidalRule` and the
three `mooseAssert`s of `convertValue`. -/
inductive Fatal where
  /-- The mooseError "Ends of interval do not fulfill requirement b > a in trapezoidalRule". -/
  | intervalError
  /-- The failed assertion "Coefficient must not be zero." -/
  | coefficientZero
  /-- The failed assertion "Sum must be greater than 0." -/
  | sumNotPositive
  /-- The failed assertion "Coefficient cannot be supplied with linear transformation". -/
  | coefficientSupplied
  deriving DecidableEq, Repr

section Trapezoidal

variable {K : Type} [LinearOrderedField K]

/-- Local variables of `trapezoidalRule` that are live across the `while` loop. -/
structure TrapState (K : Type) where
  h : K
  interval_0 : K
  interval_length_0 : K
  interval_1 : K
  interval_length_1 : K
  iteration_number : Nat
  error : K

/-- The inner loop `for (std::size_t j = 1; j < p; j += 2)` of `trapezoidalRule`, started at
counter `j` with the accumulators `sum` and `absum`; the pair of final accumulators is returned.
`f` is `computeCreepStrainRate`. -/
def forLoop (f : K → K) (a h : K) (p : Nat) (j : Nat) (sum absum : K) : K × K :=
  if j < p then
    let y := f (a + (j : K) * h)
    forLoop f a h p (j + 2) (sum + y) (absum + |y|)
  else
    (sum, absum)
termination_by p - j

/-- One pass through the body of the `while` loop of `trapezoidalRule`. The factor `0.5` is the
fraction `1 / 2`. `std::size_t` is embedded as `Nat`, so the counter and the shift
`static_cast<std::size_t>(1u) << iteration_number` do not wrap (in C++ the shift is exact as long
as `iteration_number` is below the width of `std::size_t`). -/
def loopBody (f : K → K) (a : K) (s : TrapState K) : TrapState K :=
  let interval_0 := s.interval_1
  let interval_length_0 := s.interval_length_1
  let interval_1 := interval_0 * (1 / 2)
  let interval_length_1 := interval_length_0 * (1 / 2)
  let p : Nat := 1 <<< s.iteration_number
  let h := s.h * (1 / 2)
  let r := forLoop f a h p 1 0 0
  let interval_1 := interval_1 + r.1 * h
  let interval_length_1 := interval_length_1 + r.2 * h
  { h := h
    interval_0 := interval_0
    interval_length_0 := interval_length_0
    interval_1 := interval_1
    interval_length_1 := interval_length_1
    iteration_number := s.iteration_number + 1
    error := |interval_0 - interval_1| }

/-- The condition of the `while` loop of `trapezoidalRule`. -/
def loopCond (tol : K) (max_refinements : Nat) (s : TrapState K) : Prop :=
  s.iteration_number < 8 ∨
    (s.iteration_number < max_refinements ∧ s.error > tol * s.interval_length_1)

instance (tol : K) (max_refinements : Nat) (s : TrapState K) :
    Decidable (loopCond tol max_refinements s) := by
  unfold loopCond; infer_instance

/-- The `while` loop of `trapezoidalRule`, from the state `s` to the state at loop exit. -/
def whileLoop (f : K → K) (a tol : K) (max_refinements : Nat) (s : TrapState K) : TrapState K :=
  if loopCond tol max_refinements s then
    whileLoop f a tol max_refinements (loopBody f a s)
  else
    s
termination_by max 8 max_refinements - s.iteration_number
decreasing_by
  rename_i hc
  simp only [loopCond] at hc
  simp only [loopBody]
  omega

/-- The state of `trapezoidalRule` when the `while` loop is entered (`a < b` has been checked). -/
def initState (f : K → K) (a b : K) : TrapState K :=
  let ya := f a
  let yb := f b
  let h := (b - a) * (1 / 2)
  let interval_0 := (ya + yb) * h
  let interval_length_0 := (|ya| + |yb|) * h
  let yh := f (a + h)
  let interval_1 := interval_0 * (1 / 2) + yh * h
  let interval_length_1 := interval_length_0 * (1 / 2) + |yh| * h
  { h := h
    interval_0 := interval_0
    interval_length_0 := interval_length_0
    interval_1 := interval_1
    interval_length_1 := interval_length_1
    iteration_number := 2
    error := |interval_0 - interval_1| }

/-- The state of `trapezoidalRule` at the `return` statement, for `a < b`. -/
def exitState (f : K → K) (a b tol : K) (max_refinements : Nat) : TrapState K :=
  whileLoop f a tol max_refinements (initState f a b)

/-- `ADLAROMANCEStressUpdateBase::trapezoidalRule`; `f` is `computeCreepStrainRate`. -/
def trapezoidalRule (f : K → K) (a b tol : K) (max_refinements : Nat) : Except Fatal K :=
  if a ≥ b then
    Except.error Fatal.intervalError
  else
    Except.ok (exitState f a b tol max_refinements).interval_1

/-- The states the `while` loop of `trapezoidalRule` goes through when entered in `s0`: `s0`
itself, and the state after one more pass from any such state in which the loop condition
holds. -/
inductive Visited (f : K → K) (a tol : K) (max_refinements : Nat) (s0 : TrapState K) :
    TrapState K → Prop where
  | start : Visited f a tol max_refinements s0 s0
  | pass (s : TrapState K) : Visited f a tol max_refinements s0 s →
      loopCond tol max_refinements s → Visited f a tol max_refinements s0 (loopBody f a s)

/-- The composite trapezoid rule for `f` on `N` equal subintervals of `[a, b]`:
`H * (f a / 2 + f b / 2 + ∑_{i = 1}^{N - 1} f (a + i * H))` with `H = (b - a) / N`. -/
def compositeTrapezoid (f : K → K) (a b : K) (N : Nat) : K :=
  let H := (b - a) / (N : K)
  H * (f a / 2 + f b / 2 + ∑ i ∈ Finset.range (N - 1), f (a + ((i + 1 : Nat) : K) * H))

end Trapezoidal

section Convert

variable {K : Type} [LinearOrderedField K]

/-- The enum class `ROMInputTransform`. -/
inductive ROMInputTransform where
  | LINEAR
  | LOG
  | EXP
  deriving DecidableEq, Repr

/-- Modelled from the spec: the macro `mooseAssert(asserted, msg)` is not part of the headers
under study; it is taken as an active assertion, which lets execution continue when `asserted`
holds and is fatal otherwise (§7: a zero transform coefficient where division is required is
fatal). -/
def mooseAssert (asserted : Prop) [Decidable asserted] (msg : Fatal) : Except Fatal Unit :=
  if asserted then Except.ok () else Except.error msg

/-- `ADLAROMANCEStressUpdateBase::convertValue`. The C++ function overwrites its reference
argument `x`; the embedding returns the new value of `x`. `exp` and `log` are `std::exp` and
`std::log` on `K`. -/
def convertValue (exp log : K → K) (x : K) (transform : ROMInputTransform) (coef : K)
    (derivative : Bool) : Except Fatal K :=
  if transform = ROMInputTransform.EXP then do
    mooseAssert (coef ≠ 0) Fatal.coefficientZero
    if derivative then
      pure (exp (x / coef) / coef)
    else
      pure (exp (x / coef))
  else if transform = ROMInputTransform.LOG then do
    mooseAssert (x + coef > 0) Fatal.sumNotPositive
    if derivative then
      pure (1 / (x + coef))
    else
      pure (log (x + coef))
  else if transform = ROMInputTransform.LINEAR then do
    mooseAssert (coef = 0) Fatal.coefficientSupplied
    if derivative then
      pure 1
    else
      pure x
  else
    pure x

/-- The value `convertValue` leaves in `x` as a function of the incoming `x` (with
`derivative = false`); where the call is fatal no value is produced and the function is given
the value `0`. -/
def convertedValue (exp log : K → K) (transform : ROMInputTransform) (coef : K) (x : K) : K :=
  match convertValue exp log x transform coef false with
  | Except.ok v => v
  | Except.error _ => 0

end Convert

section RadialReturn

/-- `ADGeneralizedRadialReturnStressUpdate::minimumPermissibleValue`; the dense vector
`effective_trial_stress` is embedded as the list of its entries. -/
def minimumPermissibleValue {K : Type} [LinearOrderedField K]
    (_effective_trial_stress : List K) : K :=
  0

/-- A binary floating-point format for `Real`: `prec` significand bits and the range
`emin ≤ e ≤ emax` for the exponent of the unit in the last place. -/
structure FloatFormat where
  prec : Nat
  emin : Int
  emax : Int
  emin_le_emax : emin ≤ emax

/-- IEEE 754 binary64, the format of `double` (libMesh's default for `Real`). -/
def binary64 : FloatFormat :=
  { prec := 53, emin := -1074, emax := 971, emin_le_emax := by decide }

/-- A finite value of the format: the integer significand `mant` with `|mant| < 2 ^ prec`
scaled by `2 ^ expo` with `emin ≤ expo ≤ emax`. -/
structure FiniteReal (fmt : FloatFormat) where
  mant : Int
  expo : Int
  mant_lt : |mant| < 2 ^ fmt.prec
  expo_ge : fmt.emin ≤ expo
  expo_le : expo ≤ fmt.emax

/-- The rational number a finite floating-point value denotes. -/
def FiniteReal.val {fmt : FloatFormat} (d : FiniteReal fmt) : ℚ :=
  (d.mant : ℚ) * (2 : ℚ) ^ d.expo

/-- `std::numeric_limits<Real>::max()`: the largest significand at the largest exponent. -/
def numeric_limits_max (fmt : FloatFormat) : ℚ :=
  ((2 : ℚ) ^ fmt.prec - 1) * (2 : ℚ) ^ fmt.emax

/-- `ADGeneralizedRadialReturnStressUpdate::computeIntegrationErrorTimeStep` (the default
implementation of the virtual function); it reads no state. -/
def computeIntegrationErrorTimeStep (fmt : FloatFormat) : ℚ :=
  numeric_limits_max fmt

end RadialReturn

section Surrogate

variable {K : Type} [LinearOrderedField K]

/-- Modelled from the spec: `computePolynomial` is declared in the header and defined in a source
file that is not among the headers under study. §4.3 has the Legendre polynomials in closed form
up to degree 3, §8 the value `1` at degree 0, `x` at degree 1 and the three-term recurrence from
degree 2 on. The closed forms are taken up to degree 3 and the recurrence above it; only the
value (`derivative = false`) is modelled. -/
def computePolynomial (value : K) : Nat → K
  | 0 => 1
  | 1 => value
  | 2 => (3 * value ^ 2 - 1) / 2
  | 3 => (5 * value ^ 3 - 3 * value) / 2
  | n + 4 =>
    ((2 * ((n + 4 : Nat) : K) - 1) * value * computePolynomial value (n + 3)
      - (((n + 4 : Nat) : K) - 1) * computePolynomial value (n + 2)) / ((n + 4 : Nat) : K)

end Surrogate

section Invariants

variable {K : Type} [LinearOrderedField K]

/-- Step-size invariant: in a state with counter `k` the step is `(b - a) / 2 ^ (k - 1)`. -/
def StepInv (a b : K) (s : TrapState K) : Prop :=
  1 ≤ s.iteration_number ∧ s.h * 2 ^ (s.iteration_number - 1) = b - a

/-- Invariant for a constant rate `c`: the estimate is `c * (b - a)` and the error is `0`. -/
def ConstInv (a b c : K) (s : TrapState K) : Prop :=
  StepInv a b s ∧ s.interval_1 = c * (b - a) ∧ s.error = 0

/-- Trapezoid invariant: in a state with counter `k` the estimate is the composite trapezoid
rule on `2 ^ (k - 1)` subintervals. -/
def TrapInv (f : K → K) (a b : K) (s : TrapState K) : Prop :=
  StepInv a b s ∧ s.interval_1 = compositeTrapezoid f a b (2 ^ (s.iteration_number - 1))

/-- Length invariant: in a state with counter `k` the variable `interval_length_1` is the
composite trapezoid rule for `|f|` on `2 ^ (k - 1)` subintervals. -/
def LenInv (f : K → K) (a b : K) (s : TrapState K) : Prop :=
  StepInv a b s ∧
    s.interval_length_1 = compositeTrapezoid (fun x => |f x|) a b (2 ^ (s.iteration_number - 1))

/-- Previous-estimate invariant: in a state with counter `k ≥ 2` the variable `interval_0` is
the composite trapezoid rule on `2 ^ (k - 2)` subintervals, `interval_1` the one on
`2 ^ (k - 1)`, and `error` is the distance between the two. -/
def PrevInv (f : K → K) (a b : K) (s : TrapState K) : Prop :=
  TrapInv f a b s ∧ 2 ≤ s.iteration_number ∧
    s.interval_0 = compositeTrapezoid f a b (2 ^ (s.iteration_number - 2)) ∧
    s.error = |s.interval_0 - s.interval_1|

end Invariants

/-! ## Lemmas and theorems -/

section Theorems

variable {K : Type} [LinearOrderedField K]


theorem forLoop_eq_sum (f : K → K) (a h : K) (p : Nat) :
    ∀ (n j : Nat) (sum absum : K), (p + 1 - j) / 2 = n →
      forLoop f a h p j sum absum =
        (sum + ∑ i ∈ Finset.range n, f (a + ((j + 2 * i : Nat) : K) * h),
         absum + ∑ i ∈ Finset.range n, |f (a + ((j + 2 * i : Nat) : K) * h)|) := by
  intro n
  induction n with
  | zero =>
    intro j sum absum hn
    have hj : ¬ j < p := by omega
    rw [forLoop]
    simp [hj]
  | succ n ih =>
    intro j sum absum hn
    have hj : j < p := by omega
    rw [forLoop]
    simp only [hj, if_true]
    rw [ih (j + 2) _ _ (by omega)]
    rw [Finset.sum_range_succ', Finset.sum_range_succ']
    have e : ∀ i : Nat, j + 2 + 2 * i = j + 2 * (i + 1) := by intro i; ring
    simp only [e, Nat.mul_zero, Nat.add_zero]
    refine Prod.ext ?_ ?_ <;> simp only <;> ring

theorem loopBody_iteration_number (f : K → K) (a : K) (s : TrapState K) :
    (loopBody f a s).iteration_number = s.iteration_number + 1 := rfl

theorem whileLoop_of_cond {f : K → K} {a tol : K} {m : Nat} {s : TrapState K}
    (hc : loopCond tol m s) :
    whileLoop f a tol m s = whileLoop f a tol m (loopBody f a s) := by
  rw [whileLoop, if_pos hc]

theorem whileLoop_of_not_cond {f : K → K} {a tol : K} {m : Nat} {s : TrapState K}
    (hc : ¬ loopCond tol m s) :
    whileLoop f a tol m s = s := by
  rw [whileLoop, if_neg hc]

/-- Invariant rule for the `while` loop: a property kept by every pass holds at exit, where
moreover the loop condition is false. -/
theorem whileLoop_invariant (f : K → K) (a tol : K) (m : Nat) (P : TrapState K → Prop)
    (hstep : ∀ s, P s → loopCond tol m s → P (loopBody f a s)) :
    ∀ s, P s → P (whileLoop f a tol m s) ∧ ¬ loopCond tol m (whileLoop f a tol m s) := by
  intro s
  generalize hn : max 8 m - s.iteration_number = n
  induction n using Nat.strong_induction_on generalizing s with
  | _ n ih =>
    intro hP
    by_cases hc : loopCond tol m s
    · rw [whileLoop_of_cond hc]
      have hc2 := hc
      simp only [loopCond] at hc2
      refine ih (max 8 m - (loopBody f a s).iteration_number) ?_ (loopBody f a s) rfl
        (hstep s hP hc)
      rw [loopBody_iteration_number]
      omega
    · rw [whileLoop_of_not_cond hc]
      exact ⟨hP, hc⟩

/-- The sums the `for` loop accumulates in the pass with counter `k ≥ 1`: the rate at the odd
multiples of `h` below `2 ^ k`. -/
theorem forLoop_shift (f : K → K) (a h : K) (k : Nat) (hk : 1 ≤ k) :
    forLoop f a h (1 <<< k) 1 0 0 =
      (∑ i ∈ Finset.range (2 ^ (k - 1)), f (a + ((1 + 2 * i : Nat) : K) * h),
       ∑ i ∈ Finset.range (2 ^ (k - 1)), |f (a + ((1 + 2 * i : Nat) : K) * h)|) := by
  obtain ⟨k, rfl⟩ : ∃ k', k = k' + 1 := ⟨k - 1, by omega⟩
  have hn : (1 <<< (k + 1) + 1 - 1) / 2 = 2 ^ (k + 1 - 1) := by
    rw [Nat.one_shiftLeft, Nat.add_sub_cancel, Nat.add_sub_cancel, pow_succ]
    omega
  rw [forLoop_eq_sum f a h _ _ 1 0 0 hn]
  simp

theorem exit_not_cond (f : K → K) (a tol : K) (m : Nat) (s : TrapState K) :
    ¬ loopCond tol m (whileLoop f a tol m s) :=
  (whileLoop_invariant f a tol m (fun _ => True) (fun _ _ _ => trivial) s trivial).2

theorem exit_counter_ge (f : K → K) (a tol : K) (m : Nat) (s : TrapState K) :
    8 ≤ (whileLoop f a tol m s).iteration_number := by
  have h := exit_not_cond f a tol m s
  simp only [loopCond, not_or] at h
  omega

theorem exit_counter_le (f : K → K) (a tol : K) (m : Nat) (s : TrapState K)
    (hs : s.iteration_number ≤ max 8 m) :
    (whileLoop f a tol m s).iteration_number ≤ max 8 m := by
  refine (whileLoop_invariant f a tol m (fun s => s.iteration_number ≤ max 8 m) ?_ s hs).1
  intro s _ hc
  simp only [loopCond] at hc
  rw [loopBody_iteration_number]
  omega

theorem stepInv_init (f : K → K) (a b : K) : StepInv a b (initState f a b) := by
  refine ⟨by simp [initState], ?_⟩
  simp only [initState]
  norm_num
  ring

theorem stepInv_body (f : K → K) (a b : K) (s : TrapState K) (hs : StepInv a b s) :
    StepInv a b (loopBody f a s) := by
  obtain ⟨h1, h2⟩ := hs
  refine ⟨by rw [loopBody_iteration_number]; omega, ?_⟩
  rw [loopBody_iteration_number]
  obtain ⟨k, hk⟩ : ∃ k', s.iteration_number = k' + 1 := ⟨s.iteration_number - 1, by omega⟩
  rw [hk] at h2
  simp only [hk, loopBody, Nat.add_sub_cancel] at h2 ⊢
  rw [pow_succ, ← h2]
  ring

theorem stepInv_exit (f : K → K) (a b tol : K) (m : Nat) :
    StepInv a b (exitState f a b tol m) :=
  (whileLoop_invariant f a tol m (StepInv a b) (fun s hs _ => stepInv_body f a b s hs)
    (initState f a b) (stepInv_init f a b)).1

theorem constInv_init (f : K → K) (a b c : K) (hf : ∀ x, f x = c) :
    ConstInv a b c (initState f a b) := by
  refine ⟨stepInv_init f a b, ?_, ?_⟩
  · simp only [initState, hf]; ring
  · simp only [initState, hf]
    rw [abs_eq_zero]; ring

theorem constInv_body (f : K → K) (a b c : K) (hf : ∀ x, f x = c) (s : TrapState K)
    (hs : ConstInv a b c s) : ConstInv a b c (loopBody f a s) := by
  obtain ⟨hstep, hI, _⟩ := hs
  have hI' : (loopBody f a s).interval_1 = c * (b - a) := by
    obtain ⟨h1, h2⟩ := hstep
    simp only [loopBody]
    rw [forLoop_shift f a _ _ h1]
    simp only [hf, Finset.sum_const, Finset.card_range, nsmul_eq_mul, hI]
    rw [← h2]
    push_cast
    ring
  refine ⟨stepInv_body f a b s hstep, hI', ?_⟩
  have : (loopBody f a s).error = |s.interval_1 - (loopBody f a s).interval_1| := rfl
  rw [this, hI', hI, sub_self, abs_zero]

theorem constInv_exit (f : K → K) (a b tol c : K) (m : Nat) (hf : ∀ x, f x = c) :
    ConstInv a b c (exitState f a b tol m) :=
  (whileLoop_invariant f a tol m (ConstInv a b c) (fun s hs _ => constInv_body f a b c hf s hs)
    (initState f a b) (constInv_init f a b c hf)).1

/-- With a constant rate and `tol = 0` the loop is left as soon as the counter is `8`. -/
theorem const_exit_counter (f : K → K) (a b c : K) (m : Nat) (hf : ∀ x, f x = c) :
    (exitState f a b 0 m).iteration_number = 8 := by
  have h := (whileLoop_invariant f a 0 m
    (fun s => ConstInv a b c s ∧ s.iteration_number ≤ 8) ?_ (initState f a b)
    ⟨constInv_init f a b c hf, by simp [initState]⟩).1
  · exact le_antisymm h.2 (exit_counter_ge f a 0 m _)
  · intro s hs hc
    refine ⟨constInv_body f a b c hf s hs.1, ?_⟩
    rw [loopBody_iteration_number]
    simp only [loopCond, hs.1.2.2, zero_mul, gt_iff_lt, lt_self_iff_false, and_false,
      or_false] at hc
    omega

/-- Splitting the interior nodes of `2 * (M + 1)` subintervals into even and odd ones. -/
theorem sum_split_even_odd (g : Nat → K) (M : Nat) :
    ∑ i ∈ Finset.range (2 * (M + 1) - 1), g (i + 1) =
      ∑ i ∈ Finset.range M, g (2 * (i + 1)) + ∑ i ∈ Finset.range (M + 1), g (1 + 2 * i) := by
  induction M with
  | zero => simp
  | succ M ih =>
    have e : 2 * (M + 1 + 1) - 1 = (2 * (M + 1) - 1) + 1 + 1 := by omega
    rw [e, Finset.sum_range_succ, Finset.sum_range_succ, ih,
      Finset.sum_range_succ (fun i => g (2 * (i + 1))),
      Finset.sum_range_succ (fun i => g (1 + 2 * i)) (M + 1)]
    have e1 : 2 * (M + 1) - 1 + 1 = 2 * (M + 1) := by omega
    have e2 : 2 * (M + 1) + 1 = 1 + 2 * (M + 1) := by omega
    rw [e1, e2]
    abel

theorem trapInv_init (f : K → K) (a b : K) : TrapInv f a b (initState f a b) := by
  refine ⟨stepInv_init f a b, ?_⟩
  simp only [initState, compositeTrapezoid]
  norm_num
  have e : (b - a) * (1 / 2) = (b - a) / 2 := by ring
  rw [e]
  ring

theorem trapInv_body (f : K → K) (a b : K) (s : TrapState K) (hs : TrapInv f a b s) :
    TrapInv f a b (loopBody f a s) := by
  obtain ⟨hstep, hI⟩ := hs
  refine ⟨stepInv_body f a b s hstep, ?_⟩
  obtain ⟨h1, h2⟩ := hstep
  obtain ⟨k, hk⟩ : ∃ k', s.iteration_number = k' + 1 := ⟨s.iteration_number - 1, by omega⟩
  have hpow : (2 : K) ^ k ≠ 0 := pow_ne_zero _ two_ne_zero
  have hh : s.h = (b - a) / 2 ^ k := by
    rw [hk, Nat.add_sub_cancel] at h2
    rw [eq_div_iff hpow, h2]
  obtain ⟨M, hM⟩ : ∃ M, 2 ^ k = M + 1 := ⟨2 ^ k - 1, by
    have : 0 < 2 ^ k := Nat.two_pow_pos k
    omega⟩
  have hMK : (2 : K) ^ k = (M : K) + 1 := by exact_mod_cast congrArg (Nat.cast : Nat → K) hM
  rw [loopBody_iteration_number]
  simp only [loopBody]
  rw [forLoop_shift f a _ _ h1, hI, hk]
  simp only [Nat.add_sub_cancel, compositeTrapezoid]
  rw [pow_succ, hM, Nat.mul_comm (M + 1) 2,
    sum_split_even_odd (fun j => f (a + ((j : Nat) : K) * ((b - a) / ((2 * (M + 1) : Nat) : K)))) M]
  rw [hh, hMK]
  have hM0 : (M : K) + 1 ≠ 0 := by rw [← hMK]; exact hpow
  have e1 : ∀ i : Nat, ((2 * (i + 1) : Nat) : K) * ((b - a) / ((2 * (M + 1) : Nat) : K)) =
      ((i + 1 : Nat) : K) * ((b - a) / ((M + 1 : Nat) : K)) := by
    intro i
    push_cast
    field_simp
    ring
  have e2 : (b - a) / ((M : K) + 1) * (1 / 2) = (b - a) / ((2 * (M + 1) : Nat) : K) := by
    push_cast
    field_simp
    left
    ring
  simp only [e1, e2]
  push_cast
  field_simp
  ring

theorem trapInv_exit (f : K → K) (a b tol : K) (m : Nat) :
    TrapInv f a b (exitState f a b tol m) :=
  (whileLoop_invariant f a tol m (TrapInv f a b) (fun s hs _ => trapInv_body f a b s hs)
    (initState f a b) (trapInv_init f a b)).1

theorem visited_counter_le (f : K → K) (a tol : K) (m : Nat) (s0 s : TrapState K)
    (h0 : s0.iteration_number ≤ max 8 m) (hv : Visited f a tol m s0 s) :
    s.iteration_number ≤ max 8 m := by
  induction hv with
  | start => exact h0
  | pass s _ hc ih =>
    simp only [loopCond] at hc
    rw [loopBody_iteration_number]
    omega

theorem visited_whileLoop (f : K → K) (a tol : K) (m : Nat) (s0 : TrapState K) :
    Visited f a tol m s0 (whileLoop f a tol m s0) :=
  (whileLoop_invariant f a tol m (Visited f a tol m s0)
    (fun s hs hc => Visited.pass s hs hc) s0 Visited.start).1

theorem convertValue_exp (exp log : K → K) (x coef : K) (d : Bool) (h : coef ≠ 0) :
    convertValue exp log x ROMInputTransform.EXP coef d =
      Except.ok (if d then exp (x / coef) / coef else exp (x / coef)) := by
  cases d <;> simp [convertValue, mooseAssert, h, bind, Except.bind, pure, Except.pure]

theorem convertValue_exp_zero (exp log : K → K) (x : K) (d : Bool) :
    convertValue exp log x ROMInputTransform.EXP 0 d = Except.error Fatal.coefficientZero := by
  cases d <;> simp [convertValue, mooseAssert, bind, Except.bind]

theorem convertValue_log (exp log : K → K) (x coef : K) (d : Bool) (h : x + coef > 0) :
    convertValue exp log x ROMInputTransform.LOG coef d =
      Except.ok (if d then 1 / (x + coef) else log (x + coef)) := by
  have h' : 0 < x + coef := h
  cases d <;> simp [convertValue, mooseAssert, h', bind, Except.bind, pure, Except.pure]

theorem convertValue_log_fail (exp log : K → K) (x coef : K) (d : Bool) (h : x + coef ≤ 0) :
    convertValue exp log x ROMInputTransform.LOG coef d = Except.error Fatal.sumNotPositive := by
  have h' : ¬ 0 < x + coef := not_lt.mpr h
  cases d <;> simp [convertValue, mooseAssert, h', bind, Except.bind]

theorem convertValue_linear (exp log : K → K) (x coef : K) (d : Bool) (h : coef = 0) :
    convertValue exp log x ROMInputTransform.LINEAR coef d =
      Except.ok (if d then 1 else x) := by
  cases d <;> simp [convertValue, mooseAssert, h, bind, Except.bind, pure, Except.pure]

theorem convertValue_linear_fail (exp log : K → K) (x coef : K) (d : Bool) (h : coef ≠ 0) :
    convertValue exp log x ROMInputTransform.LINEAR coef d =
      Except.error Fatal.coefficientSupplied := by
  cases d <;> simp [convertValue, mooseAssert, h, bind, Except.bind]

/-- C1: `trapezoidalRule` ends in the fatal interval error if and only if `a ≥ b`; for `a ≥ b` it
does so whatever `computeCreepStrainRate` is (the rate is never consulted), and for `a < b` it
raises no error and returns a value. -/
theorem trapezoidalRule_intervalError_iff (f : K → K) (a b tol : K) (max_refinements : Nat) :
    (trapezoidalRule f a b tol max_refinements = Except.error Fatal.intervalError ↔ a ≥ b) ∧
    ((∃ e, trapezoidalRule f a b tol max_refinements = Except.error e) ↔ a ≥ b) ∧
    (a ≥ b → ∀ g : K → K,
      trapezoidalRule g a b tol max_refinements = Except.error Fatal.intervalError) ∧
    (a < b → ∃ v, trapezoidalRule f a b tol max_refinements = Except.ok v) := by
  by_cases h : a ≥ b
  · have hf : ∀ g : K → K,
        trapezoidalRule g a b tol max_refinements = Except.error Fatal.intervalError := by
      intro g
      simp [trapezoidalRule, h]
    exact ⟨⟨fun _ => h, fun _ => hf f⟩, ⟨fun _ => h, fun _ => ⟨_, hf f⟩⟩, fun _ => hf,
      fun hlt => absurd h (not_le.mpr hlt)⟩
  · have hf : trapezoidalRule f a b tol max_refinements =
        Except.ok (exitState f a b tol max_refinements).interval_1 := by
      simp [trapezoidalRule, h]
    refine ⟨⟨fun he => ?_, fun hab => absurd hab h⟩, ⟨fun he => ?_, fun hab => absurd hab h⟩,
      fun hab => absurd hab h, fun _ => ⟨_, hf⟩⟩
    · rw [hf] at he
      cases he
    · obtain ⟨e, he⟩ := he
      rw [hf] at he
      cases he

/-- C1, at concrete intervals over the rationals: inverted and degenerate bounds are fatal,
ordered bounds give a value. -/
theorem trapezoidalRule_intervalError_iff_witness :
    trapezoidalRule (fun x : ℚ => x) 1 0 0 8 = Except.error Fatal.intervalError ∧
    trapezoidalRule (fun x : ℚ => x) 1 1 0 8 = Except.error Fatal.intervalError ∧
    ∃ v, trapezoidalRule (fun x : ℚ => x) 0 1 0 8 = Except.ok v :=
  ⟨((trapezoidalRule_intervalError_iff (fun x : ℚ => x) 1 0 0 8).1).2 (by norm_num),
   ((trapezoidalRule_intervalError_iff (fun x : ℚ => x) 1 1 0 8).1).2 (by norm_num),
   (trapezoidalRule_intervalError_iff (fun x : ℚ => x) 0 1 0 8).2.2.2 (by norm_num)⟩

/-- C2: for `a < b` and a rate that is the constant `c`, `trapezoidalRule` returns exactly
`c * (b - a)`, for every `tol` and every `max_refinements`. -/
theorem trapezoidalRule_const (f : K → K) (a b tol c : K) (max_refinements : Nat)
    (hab : a < b) (hf : ∀ x, f x = c) :
    trapezoidalRule f a b tol max_refinements = Except.ok (c * (b - a)) := by
  have h : ¬ a ≥ b := not_le.mpr hab
  simp only [trapezoidalRule, h, if_false]
  rw [(constInv_exit f a b tol c max_refinements hf).2.1]

/-- C2 at the constant rate `3` on `[0, 2]`, with a negative tolerance and twelve refinements. -/
theorem trapezoidalRule_const_witness :
    (0 : ℚ) < 2 ∧ (∀ x : ℚ, (fun _ : ℚ => (3 : ℚ)) x = 3) ∧
      trapezoidalRule (fun _ : ℚ => (3 : ℚ)) 0 2 (-1) 12 = Except.ok (3 * (2 - 0)) :=
  ⟨by norm_num, fun _ => rfl,
    trapezoidalRule_const (fun _ : ℚ => (3 : ℚ)) 0 2 (-1) 3 12 (by norm_num) (fun _ => rfl)⟩

/-- C3 as stated fails: with the constant rate `1` on `[0, 1]`, `tol = 0` and up to `100`
refinements the loop is left on the error criterion with counter `8` and step `1 / 2 ^ 7`, so
after `7` doublings of the single interval, not `8`. -/
theorem trapezoidalRule_eight_doublings_counterexample :
    (exitState (fun _ : ℚ => (1 : ℚ)) 0 1 0 100).iteration_number = 8 ∧
    (exitState (fun _ : ℚ => (1 : ℚ)) 0 1 0 100).h = (1 - 0) / 2 ^ 7 ∧
    ¬ ∃ d : Nat, 8 ≤ d ∧ (exitState (fun _ : ℚ => (1 : ℚ)) 0 1 0 100).h = (1 - 0) / 2 ^ d := by
  have hn : (exitState (fun _ : ℚ => (1 : ℚ)) 0 1 0 100).iteration_number = 8 :=
    const_exit_counter (fun _ : ℚ => (1 : ℚ)) 0 1 1 100 (fun _ => rfl)
  have hs := (stepInv_exit (fun _ : ℚ => (1 : ℚ)) 0 1 0 100).2
  rw [hn] at hs
  have hh : (exitState (fun _ : ℚ => (1 : ℚ)) 0 1 0 100).h = (1 - 0) / 2 ^ 7 := by
    rw [eq_div_iff (by norm_num)]
    exact hs
  refine ⟨hn, hh, ?_⟩
  rintro ⟨d, hd, he⟩
  rw [hh] at he
  have h1 : (2 : ℚ) ^ 8 ≤ 2 ^ d := pow_le_pow_right₀ (by norm_num) hd
  have h2 : (2 : ℚ) ^ d = 2 ^ 7 := by
    have hd0 : (2 : ℚ) ^ d ≠ 0 := pow_ne_zero _ (by norm_num)
    field_simp at he
    linarith
  rw [h2] at h1
  norm_num at h1

/-- C3, amended: for `a < b` the loop is left with a counter `n ≥ 8`, any state with a smaller
counter continues whatever its error is, the final step is `(b - a) / 2 ^ (n - 1)`, i.e. the
single interval has been doubled `n - 1 ≥ 7` times, and the value returned is the composite
trapezoid rule on `2 ^ (n - 1) ≥ 2 ^ 7` subintervals. -/
theorem trapezoidalRule_seven_doublings (f : K → K) (a b tol : K) (max_refinements : Nat)
    (hab : a < b) :
    (∀ s : TrapState K, s.iteration_number < 8 → loopCond tol max_refinements s) ∧
    ∃ n : Nat, (exitState f a b tol max_refinements).iteration_number = n ∧ 8 ≤ n ∧
      (exitState f a b tol max_refinements).h = (b - a) / 2 ^ (n - 1) ∧
      trapezoidalRule f a b tol max_refinements =
        Except.ok (compositeTrapezoid f a b (2 ^ (n - 1))) ∧
      2 ^ 7 ≤ 2 ^ (n - 1) := by
  refine ⟨fun s hs => Or.inl hs, _, rfl, exit_counter_ge f a tol max_refinements _, ?_, ?_, ?_⟩
  · rw [eq_div_iff (pow_ne_zero _ two_ne_zero)]
    exact (stepInv_exit f a b tol max_refinements).2
  · have h : ¬ a ≥ b := not_le.mpr hab
    simp only [trapezoidalRule, h, if_false]
    rw [(trapInv_exit f a b tol max_refinements).2]
  · have := exit_counter_ge f a tol max_refinements (initState f a b)
    exact Nat.pow_le_pow_right (by norm_num) (by unfold exitState; omega)

/-- C3, amended, on `[0, 1]` with the rate `x ↦ x * x`. -/
theorem trapezoidalRule_seven_doublings_witness :
    (0 : ℚ) < 1 ∧
    ∃ n : Nat, (exitState (fun x : ℚ => x * x) 0 1 (1 / 1000) 20).iteration_number = n ∧ 8 ≤ n ∧
      (exitState (fun x : ℚ => x * x) 0 1 (1 / 1000) 20).h = (1 - 0) / 2 ^ (n - 1) ∧
      trapezoidalRule (fun x : ℚ => x * x) 0 1 (1 / 1000) 20 =
        Except.ok (compositeTrapezoid (fun x : ℚ => x * x) 0 1 (2 ^ (n - 1))) ∧
      2 ^ 7 ≤ 2 ^ (n - 1) :=
  ⟨by norm_num,
    (trapezoidalRule_seven_doublings (fun x : ℚ => x * x) 0 1 (1 / 1000) 20 (by norm_num)).2⟩

/-- C4 as stated fails: with `max_refinements = 3` the counter is `8` when the loop is left, and
`8` exceeds `3`. -/
theorem trapezoidalRule_counter_cap_counterexample :
    (exitState (fun _ : ℚ => (1 : ℚ)) 0 1 0 3).iteration_number = 8 ∧
    ¬ (exitState (fun _ : ℚ => (1 : ℚ)) 0 1 0 3).iteration_number ≤ 3 := by
  have hn : (exitState (fun _ : ℚ => (1 : ℚ)) 0 1 0 3).iteration_number = 8 :=
    const_exit_counter (fun _ : ℚ => (1 : ℚ)) 0 1 1 3 (fun _ => rfl)
  refine ⟨hn, ?_⟩
  rw [hn]
  norm_num

/-- C4, amended: in every state the loop goes through, the exit state included, the counter is
at most `max 8 max_refinements` (so at most `max_refinements` when `max_refinements ≥ 8`), and
in a state whose counter has reached `max 8 max_refinements` the loop condition is false
whatever the error estimate is. -/
theorem trapezoidalRule_counter_cap (f : K → K) (a b tol : K) (max_refinements : Nat)
    (s : TrapState K) (hs : Visited f a tol max_refinements (initState f a b) s) :
    s.iteration_number ≤ max 8 max_refinements ∧
    (8 ≤ max_refinements → s.iteration_number ≤ max_refinements) ∧
    (∀ t : TrapState K, max 8 max_refinements ≤ t.iteration_number →
      ¬ loopCond tol max_refinements t) ∧
    Visited f a tol max_refinements (initState f a b) (exitState f a b tol max_refinements) := by
  have h := visited_counter_le f a tol max_refinements (initState f a b) s
    (by simp [initState]) hs
  refine ⟨h, fun h8 => by omega, ?_, visited_whileLoop f a tol max_refinements _⟩
  intro t ht hc
  simp only [loopCond] at hc
  omega

/-- C4, amended, at the exit state of a run with `max_refinements = 3`. -/
theorem trapezoidalRule_counter_cap_witness :
    Visited (fun x : ℚ => x * x) 0 (1 / 1000) 3 (initState (fun x : ℚ => x * x) 0 1)
      (exitState (fun x : ℚ => x * x) 0 1 (1 / 1000) 3) ∧
    (exitState (fun x : ℚ => x * x) 0 1 (1 / 1000) 3).iteration_number ≤ max 8 3 :=
  ⟨visited_whileLoop _ 0 (1 / 1000) 3 _,
    (trapezoidalRule_counter_cap (fun x : ℚ => x * x) 0 1 (1 / 1000) 3 _
      (visited_whileLoop _ 0 (1 / 1000) 3 _)).1⟩

/-- C5: round trip over the reals. For `x + coef > 0` the LOG transform succeeds and
`y ↦ exp y - coef` recovers `x` from its result; for `coef ≠ 0` the EXP transform succeeds and
`y ↦ coef * log y` recovers `x` from its result. -/
theorem convertValue_roundtrip (coef x : ℝ) :
    (x + coef > 0 →
      ∃ y, convertValue Real.exp Real.log x ROMInputTransform.LOG coef false = Except.ok y ∧
        Real.exp y - coef = x) ∧
    (coef ≠ 0 →
      ∃ y, convertValue Real.exp Real.log x ROMInputTransform.EXP coef false = Except.ok y ∧
        coef * Real.log y = x) := by
  constructor
  · intro h
    refine ⟨_, convertValue_log Real.exp Real.log x coef false h, ?_⟩
    simp only [Bool.false_eq_true, if_false]
    rw [Real.exp_log h]
    ring
  · intro h
    refine ⟨_, convertValue_exp Real.exp Real.log x coef false h, ?_⟩
    simp only [Bool.false_eq_true, if_false]
    rw [Real.log_exp]
    field_simp

/-- C5 at `x = 1`, `coef = 2`. -/
theorem convertValue_roundtrip_witness :
    (∃ y, convertValue Real.exp Real.log 1 ROMInputTransform.LOG 2 false = Except.ok y ∧
        Real.exp y - 2 = 1) ∧
    (∃ y, convertValue Real.exp Real.log 1 ROMInputTransform.EXP 2 false = Except.ok y ∧
        2 * Real.log y = 1) :=
  ⟨(convertValue_roundtrip 2 1).1 (by norm_num), (convertValue_roundtrip 2 1).2 (by norm_num)⟩

/-- C6: with `derivative = false`, `convertValue` leaves `x` itself for LINEAR (when
`coef = 0`), `log (x + coef)` for LOG (when `x + coef > 0`) and `exp (x / coef)` for EXP (when
`coef ≠ 0`); LINEAR, LOG and EXP are the only transforms, and a value is returned in these three
cases only. -/
theorem convertValue_value (exp log : K → K) (x coef : K) :
    (coef = 0 → convertValue exp log x ROMInputTransform.LINEAR coef false = Except.ok x) ∧
    (x + coef > 0 →
      convertValue exp log x ROMInputTransform.LOG coef false = Except.ok (log (x + coef))) ∧
    (coef ≠ 0 →
      convertValue exp log x ROMInputTransform.EXP coef false = Except.ok (exp (x / coef))) ∧
    (∀ t : ROMInputTransform,
      t = ROMInputTransform.LINEAR ∨ t = ROMInputTransform.LOG ∨ t = ROMInputTransform.EXP) ∧
    (∀ (t : ROMInputTransform) (r : K), convertValue exp log x t coef false = Except.ok r ↔
      (t = ROMInputTransform.LINEAR ∧ coef = 0 ∧ r = x) ∨
      (t = ROMInputTransform.LOG ∧ x + coef > 0 ∧ r = log (x + coef)) ∨
      (t = ROMInputTransform.EXP ∧ coef ≠ 0 ∧ r = exp (x / coef))) := by
  refine ⟨fun h => by simpa using convertValue_linear exp log x coef false h,
    fun h => by simpa using convertValue_log exp log x coef false h,
    fun h => by simpa using convertValue_exp exp log x coef false h,
    fun t => by cases t <;> simp, ?_⟩
  intro t r
  cases t
  · by_cases h : coef = 0
    · rw [convertValue_linear exp log x coef false h]
      simp [h, eq_comm]
    · rw [convertValue_linear_fail exp log x coef false h]
      simp [h]
  · by_cases h : x + coef > 0
    · rw [convertValue_log exp log x coef false h]
      have h' : 0 < x + coef := h
      simp [h', eq_comm]
    · rw [convertValue_log_fail exp log x coef false (not_lt.mp h)]
      have h' : ¬ 0 < x + coef := h
      simp [h']
  · by_cases h : coef = 0
    · subst h
      rw [convertValue_exp_zero exp log x false]
      simp
    · rw [convertValue_exp exp log x coef false h]
      simp [h, eq_comm]

/-- C6 at concrete rational inputs, with stand-ins for `exp` and `log`. -/
theorem convertValue_value_witness :
    convertValue (fun y : ℚ => y + 100) (fun y : ℚ => y - 100) 5 ROMInputTransform.LINEAR 0 false
      = Except.ok 5 ∧
    convertValue (fun y : ℚ => y + 100) (fun y : ℚ => y - 100) 5 ROMInputTransform.LOG 2 false
      = Except.ok ((fun y : ℚ => y - 100) (5 + 2)) ∧
    convertValue (fun y : ℚ => y + 100) (fun y : ℚ => y - 100) 5 ROMInputTransform.EXP 2 false
      = Except.ok ((fun y : ℚ => y + 100) (5 / 2)) :=
  ⟨(convertValue_value _ _ 5 0).1 rfl, (convertValue_value _ _ 5 2).2.1 (by norm_num),
    (convertValue_value _ _ 5 2).2.2.1 (by norm_num)⟩

/-- C7: over the reals, for each transform, admissible `coef` and `x` in the domain, the result
of `convertValue` with `derivative = true` is `1` (LINEAR), `1 / (x + coef)` (LOG),
`exp (x / coef) / coef` (EXP), and is the derivative at `x` of the function `convertValue`
computes with `derivative = false`. -/
theorem convertValue_derivative (coef x : ℝ) :
    (coef = 0 →
      convertValue Real.exp Real.log x ROMInputTransform.LINEAR coef true = Except.ok 1 ∧
      HasDerivAt (convertedValue Real.exp Real.log ROMInputTransform.LINEAR coef) 1 x) ∧
    (x + coef > 0 →
      convertValue Real.exp Real.log x ROMInputTransform.LOG coef true
        = Except.ok (1 / (x + coef)) ∧
      HasDerivAt (convertedValue Real.exp Real.log ROMInputTransform.LOG coef)
        (1 / (x + coef)) x) ∧
    (coef ≠ 0 →
      convertValue Real.exp Real.log x ROMInputTransform.EXP coef true
        = Except.ok (Real.exp (x / coef) / coef) ∧
      HasDerivAt (convertedValue Real.exp Real.log ROMInputTransform.EXP coef)
        (Real.exp (x / coef) / coef) x) := by
  refine ⟨fun h => ⟨by simpa using convertValue_linear Real.exp Real.log x coef true h, ?_⟩,
    fun h => ⟨by simpa using convertValue_log Real.exp Real.log x coef true h, ?_⟩,
    fun h => ⟨by simpa using convertValue_exp Real.exp Real.log x coef true h, ?_⟩⟩
  · have e : convertedValue Real.exp Real.log ROMInputTransform.LINEAR coef = fun y => y := by
      funext y
      simp [convertedValue, convertValue_linear Real.exp Real.log y coef false h]
    rw [e]
    exact hasDerivAt_id x
  · have hd : HasDerivAt (fun y : ℝ => Real.log (y + coef)) (1 / (x + coef)) x := by
      have := ((hasDerivAt_id x).add_const coef).log (ne_of_gt h)
      simpa using this
    refine hd.congr_of_eventuallyEq ?_
    have hopen : IsOpen {y : ℝ | 0 < y + coef} :=
      isOpen_lt continuous_const (continuous_id.add continuous_const)
    filter_upwards [hopen.mem_nhds (show x ∈ {y : ℝ | 0 < y + coef} from h)] with y hy
    simp [convertedValue, convertValue_log Real.exp Real.log y coef false hy]
  · have e : convertedValue Real.exp Real.log ROMInputTransform.EXP coef =
        fun y => Real.exp (y / coef) := by
      funext y
      simp [convertedValue, convertValue_exp Real.exp Real.log y coef false h]
    rw [e]
    have := ((hasDerivAt_id x).div_const coef).exp
    simpa [div_eq_mul_inv] using this

/-- C7 at `x = 1`, with `coef = 0` for LINEAR and `coef = 2` for LOG and EXP. -/
theorem convertValue_derivative_witness :
    HasDerivAt (convertedValue Real.exp Real.log ROMInputTransform.LINEAR 0) 1 1 ∧
    HasDerivAt (convertedValue Real.exp Real.log ROMInputTransform.LOG 2) (1 / (1 + 2)) 1 ∧
    HasDerivAt (convertedValue Real.exp Real.log ROMInputTransform.EXP 2)
      (Real.exp (1 / 2) / 2) 1 :=
  ⟨((convertValue_derivative 0 1).1 rfl).2, ((convertValue_derivative 2 1).2.1 (by norm_num)).2,
    ((convertValue_derivative 2 1).2.2 (by norm_num)).2⟩

/-- C8: `convertValue x EXP 0` is fatal for every `x` and either derivative flag, and in
general `convertValue` is fatal exactly when `transform = EXP ∧ coef = 0`, or
`transform = LOG ∧ x + coef ≤ 0`, or `transform = LINEAR ∧ coef ≠ 0`; in every other case it
returns a value. -/
theorem convertValue_fatal_iff (exp log : K → K) (x coef : K) (transform : ROMInputTransform)
    (derivative : Bool) :
    convertValue exp log x ROMInputTransform.EXP 0 derivative
      = Except.error Fatal.coefficientZero ∧
    ((∃ e, convertValue exp log x transform coef derivative = Except.error e) ↔
      (transform = ROMInputTransform.EXP ∧ coef = 0) ∨
      (transform = ROMInputTransform.LOG ∧ x + coef ≤ 0) ∨
      (transform = ROMInputTransform.LINEAR ∧ coef ≠ 0)) ∧
    ((∃ v, convertValue exp log x transform coef derivative = Except.ok v) ↔
      ¬ ((transform = ROMInputTransform.EXP ∧ coef = 0) ∨
        (transform = ROMInputTransform.LOG ∧ x + coef ≤ 0) ∨
        (transform = ROMInputTransform.LINEAR ∧ coef ≠ 0))) := by
  refine ⟨convertValue_exp_zero exp log x derivative, ?_⟩
  cases transform
  · by_cases h : coef = 0
    · rw [convertValue_linear exp log x coef derivative h]
      simp [h]
    · rw [convertValue_linear_fail exp log x coef derivative h]
      simp [h]
  · by_cases h : x + coef > 0
    · rw [convertValue_log exp log x coef derivative h]
      have h' : ¬ x + coef ≤ 0 := not_le.mpr h
      simp [h']
    · rw [convertValue_log_fail exp log x coef derivative (not_lt.mp h)]
      have h' : x + coef ≤ 0 := not_lt.mp h
      simp [h']
  · by_cases h : coef = 0
    · subst h
      rw [convertValue_exp_zero exp log x derivative]
      simp
    · rw [convertValue_exp exp log x coef derivative h]
      simp [h]

/-- C9: `minimumPermissibleValue` is `0` for every effective trial stress vector, hence the
same for any two of them. -/
theorem minimumPermissibleValue_eq_zero (effective_trial_stress : List K) :
    minimumPermissibleValue effective_trial_stress = 0 ∧
    ∀ other : List K,
      minimumPermissibleValue other = minimumPermissibleValue effective_trial_stress :=
  ⟨rfl, fun _ => rfl⟩

/-- C10: the default `computeIntegrationErrorTimeStep` returns `numeric_limits<Real>::max()`,
which is itself a finite value of the format and bounds every finite value, so
`min dt (computeIntegrationErrorTimeStep) = dt` for every finite time step `dt`. -/
theorem computeIntegrationErrorTimeStep_no_limit (fmt : FloatFormat) (dt : FiniteReal fmt) :
    computeIntegrationErrorTimeStep fmt = numeric_limits_max fmt ∧
    (∃ top : FiniteReal fmt, top.val = computeIntegrationErrorTimeStep fmt) ∧
    dt.val ≤ computeIntegrationErrorTimeStep fmt ∧
    min dt.val (computeIntegrationErrorTimeStep fmt) = dt.val := by
  have hle : dt.val ≤ computeIntegrationErrorTimeStep fmt := by
    unfold computeIntegrationErrorTimeStep numeric_limits_max FiniteReal.val
    have hpos : (0 : ℚ) < 2 ^ dt.expo := zpow_pos (by norm_num) _
    have hexp : (2 : ℚ) ^ dt.expo ≤ 2 ^ fmt.emax := zpow_le_zpow_right₀ (by norm_num) dt.expo_le
    have hm : (dt.mant : ℚ) ≤ 2 ^ fmt.prec - 1 := by
      have h1 : dt.mant < 2 ^ fmt.prec := lt_of_le_of_lt (le_abs_self _) dt.mant_lt
      have h2 : dt.mant ≤ 2 ^ fmt.prec - 1 := by omega
      exact_mod_cast h2
    have htop : (0 : ℚ) ≤ 2 ^ fmt.prec - 1 := by
      have : (1 : ℚ) ≤ 2 ^ fmt.prec := one_le_pow₀ (by norm_num)
      linarith
    calc (dt.mant : ℚ) * 2 ^ dt.expo ≤ (2 ^ fmt.prec - 1) * 2 ^ dt.expo :=
          mul_le_mul_of_nonneg_right hm hpos.le
      _ ≤ (2 ^ fmt.prec - 1) * 2 ^ fmt.emax := mul_le_mul_of_nonneg_left hexp htop
  refine ⟨rfl, ⟨⟨2 ^ fmt.prec - 1, fmt.emax, ?_, fmt.emin_le_emax, le_refl _⟩, ?_⟩, hle,
    min_eq_left hle⟩
  · have h1 : (1 : Int) ≤ 2 ^ fmt.prec := one_le_pow₀ (by norm_num)
    rw [abs_of_nonneg (by omega)]
    omega
  · unfold computeIntegrationErrorTimeStep numeric_limits_max FiniteReal.val
    push_cast
    rfl

theorem lenInv_init (f : K → K) (a b : K) : LenInv f a b (initState f a b) :=
  ⟨stepInv_init f a b, (trapInv_init (fun x => |f x|) a b).2⟩

theorem lenInv_body (f : K → K) (a b : K) (s : TrapState K) (hs : LenInv f a b s) :
    LenInv f a b (loopBody f a s) := by
  obtain ⟨hstep, hL⟩ := hs
  refine ⟨stepInv_body f a b s hstep, ?_⟩
  have key := (trapInv_body (fun x => |f x|) a b
    { s with interval_1 := s.interval_length_1 } ⟨hstep, hL⟩).2
  have e : (loopBody f a s).interval_length_1 =
      (loopBody (fun x => |f x|) a { s with interval_1 := s.interval_length_1 }).interval_1 := by
    simp only [loopBody]
    rw [forLoop_shift f a _ _ hstep.1, forLoop_shift (fun x => |f x|) a _ _ hstep.1]
  rw [e, key]
  rfl

theorem lenInv_exit (f : K → K) (a b tol : K) (m : Nat) :
    LenInv f a b (exitState f a b tol m) :=
  (whileLoop_invariant f a tol m (LenInv f a b) (fun s hs _ => lenInv_body f a b s hs)
    (initState f a b) (lenInv_init f a b)).1

theorem prevInv_init (f : K → K) (a b : K) : PrevInv f a b (initState f a b) := by
  refine ⟨trapInv_init f a b, by simp [initState], ?_, rfl⟩
  simp only [initState, compositeTrapezoid]
  norm_num
  ring

theorem prevInv_body (f : K → K) (a b : K) (s : TrapState K) (hs : PrevInv f a b s) :
    PrevInv f a b (loopBody f a s) := by
  obtain ⟨htrap, h2, _, _⟩ := hs
  refine ⟨trapInv_body f a b s htrap, by rw [loopBody_iteration_number]; omega, ?_, rfl⟩
  have e : (loopBody f a s).interval_0 = s.interval_1 := rfl
  rw [e, htrap.2, loopBody_iteration_number]
  rfl

theorem prevInv_exit (f : K → K) (a b tol : K) (m : Nat) :
    PrevInv f a b (exitState f a b tol m) :=
  (whileLoop_invariant f a tol m (PrevInv f a b) (fun s hs _ => prevInv_body f a b s hs)
    (initState f a b) (prevInv_init f a b)).1

theorem iterate_counter (f : K → K) (a : K) (s : TrapState K) (N : Nat) :
    ((loopBody f a)^[N] s).iteration_number = s.iteration_number + N := by
  induction N with
  | zero => rfl
  | succ N ih =>
    rw [Function.iterate_succ_apply', loopBody_iteration_number, ih]
    omega

/-- The exit state is reached by a number `N` of passes through the body: the loop condition
holds before each of them and fails after the last. -/
theorem whileLoop_iterate (f : K → K) (a tol : K) (m : Nat) (s0 : TrapState K) :
    ∃ N : Nat, whileLoop f a tol m s0 = (loopBody f a)^[N] s0 ∧
      (∀ i, i < N → loopCond tol m ((loopBody f a)^[i] s0)) ∧
      ¬ loopCond tol m ((loopBody f a)^[N] s0) := by
  have h := whileLoop_invariant f a tol m
    (fun s => ∃ N : Nat, s = (loopBody f a)^[N] s0 ∧
      ∀ i, i < N → loopCond tol m ((loopBody f a)^[i] s0)) ?_ s0 ⟨0, rfl, fun i hi => by omega⟩
  · obtain ⟨⟨N, hN, hpre⟩, hexit⟩ := h
    exact ⟨N, hN, hpre, hN ▸ hexit⟩
  · rintro s ⟨N, hN, hpre⟩ hc
    refine ⟨N + 1, ?_, ?_⟩
    · rw [Function.iterate_succ_apply', ← hN]
    · intro i hi
      rcases Nat.lt_succ_iff_lt_or_eq.mp hi with hlt | heq
      · exact hpre i hlt
      · rw [heq, ← hN]
        exact hc

/-- The `for` loop sees the rate only at the nodes `a + (j + 2 * i) * h` it visits. -/
theorem forLoop_congr (f g : K → K) (a h : K) (p : Nat) (n j : Nat) (hn : (p + 1 - j) / 2 = n)
    (hfg : ∀ i, i < n → g (a + ((j + 2 * i : Nat) : K) * h) = f (a + ((j + 2 * i : Nat) : K) * h)) :
    forLoop g a h p j 0 0 = forLoop f a h p j 0 0 := by
  rw [forLoop_eq_sum g a h p n j 0 0 hn, forLoop_eq_sum f a h p n j 0 0 hn]
  have e1 : ∑ i ∈ Finset.range n, g (a + ((j + 2 * i : Nat) : K) * h) =
      ∑ i ∈ Finset.range n, f (a + ((j + 2 * i : Nat) : K) * h) :=
    Finset.sum_congr rfl (fun i hi => hfg i (Finset.mem_range.mp hi))
  have e2 : ∑ i ∈ Finset.range n, |g (a + ((j + 2 * i : Nat) : K) * h)| =
      ∑ i ∈ Finset.range n, |f (a + ((j + 2 * i : Nat) : K) * h)| :=
    Finset.sum_congr rfl (fun i hi => by rw [hfg i (Finset.mem_range.mp hi)])
  rw [e1, e2]

/-- Every node of a pass lies in `[a, b]`: with step `(b - a) / 2 ^ k` after halving, the odd
multiples below `2 ^ k` stay inside the interval. -/
theorem node_mem_interval (a b : K) (hab : a < b) (s : TrapState K) (hs : StepInv a b s)
    (i : Nat) (hi : i < 2 ^ (s.iteration_number - 1)) :
    a ≤ a + ((1 + 2 * i : Nat) : K) * (s.h * (1 / 2)) ∧
      a + ((1 + 2 * i : Nat) : K) * (s.h * (1 / 2)) ≤ b := by
  obtain ⟨_, h2⟩ := hs
  have hpos : (0 : K) < 2 ^ (s.iteration_number - 1) := pow_pos two_pos _
  have hh : 0 < s.h := by
    have : 0 < s.h * 2 ^ (s.iteration_number - 1) := by rw [h2]; linarith
    exact (pos_iff_pos_of_mul_pos this).mpr hpos
  have hi2 : ((1 + 2 * i : Nat) : K) ≤ 2 * 2 ^ (s.iteration_number - 1) := by
    have : 1 + 2 * i ≤ 2 * 2 ^ (s.iteration_number - 1) := by omega
    exact_mod_cast this
  have hnn : (0 : K) ≤ ((1 + 2 * i : Nat) : K) := Nat.cast_nonneg _
  constructor
  · have : 0 ≤ ((1 + 2 * i : Nat) : K) * (s.h * (1 / 2)) :=
      mul_nonneg hnn (by linarith)
    linarith
  · have : ((1 + 2 * i : Nat) : K) * (s.h * (1 / 2)) ≤
        2 * 2 ^ (s.iteration_number - 1) * (s.h * (1 / 2)) :=
      mul_le_mul_of_nonneg_right hi2 (by linarith)
    have e : 2 * 2 ^ (s.iteration_number - 1) * (s.h * (1 / 2)) = b - a := by
      rw [← h2]; ring
    linarith

theorem loopBody_congr (f g : K → K) (a b : K) (hab : a < b)
    (hfg : ∀ x, a ≤ x → x ≤ b → g x = f x) (s : TrapState K) (hs : StepInv a b s) :
    loopBody g a s = loopBody f a s := by
  have hn : (1 <<< s.iteration_number + 1 - 1) / 2 = 2 ^ (s.iteration_number - 1) := by
    obtain ⟨k, hk⟩ : ∃ k', s.iteration_number = k' + 1 := ⟨s.iteration_number - 1, by
      have := hs.1
      omega⟩
    rw [hk, Nat.one_shiftLeft, Nat.add_sub_cancel, Nat.add_sub_cancel, pow_succ]
    omega
  have e : forLoop g a (s.h * (1 / 2)) (1 <<< s.iteration_number) 1 0 0 =
      forLoop f a (s.h * (1 / 2)) (1 <<< s.iteration_number) 1 0 0 := by
    refine forLoop_congr f g a _ _ _ 1 hn ?_
    intro i hi
    obtain ⟨h1, h2⟩ := node_mem_interval a b hab s hs i hi
    exact hfg _ h1 h2
  simp only [loopBody, e]

theorem whileLoop_congr (f g : K → K) (a b tol : K) (m : Nat) (hab : a < b)
    (hfg : ∀ x, a ≤ x → x ≤ b → g x = f x) :
    ∀ s : TrapState K, StepInv a b s → whileLoop g a tol m s = whileLoop f a tol m s := by
  intro s
  generalize hn : max 8 m - s.iteration_number = n
  induction n using Nat.strong_induction_on generalizing s with
  | _ n ih =>
    intro hs
    by_cases hc : loopCond tol m s
    · rw [whileLoop_of_cond hc, whileLoop_of_cond hc, loopBody_congr f g a b hab hfg s hs]
      have hc2 := hc
      simp only [loopCond] at hc2
      refine ih (max 8 m - (loopBody f a s).iteration_number) ?_ (loopBody f a s) rfl
        (stepInv_body f a b s hs)
      rw [loopBody_iteration_number]
      omega
    · rw [whileLoop_of_not_cond hc, whileLoop_of_not_cond hc]

theorem initState_congr (f g : K → K) (a b : K) (hab : a < b)
    (hfg : ∀ x, a ≤ x → x ≤ b → g x = f x) : initState g a b = initState f a b := by
  have ha : g a = f a := hfg a le_rfl hab.le
  have hb : g b = f b := hfg b hab.le le_rfl
  have hm : g (a + (b - a) * (1 / 2)) = f (a + (b - a) * (1 / 2)) :=
    hfg _ (by linarith) (by linarith)
  simp only [initState, ha, hb, hm]

/-- C11: in the model of `computePolynomial` taken from the spec, the value is `1` at degree 0,
`x` at degree 1, and for `n = 2` and `n = 3` the closed form of degree `n` satisfies the Legendre
recurrence `((2 n - 1) x P (n - 1) - (n - 1) P (n - 2)) / n`. -/
theorem computePolynomial_legendre (x : K) (n : Nat) (hn : n = 2 ∨ n = 3) :
    computePolynomial x 0 = 1 ∧ computePolynomial x 1 = x ∧
    computePolynomial x n =
      ((2 * (n : K) - 1) * x * computePolynomial x (n - 1)
        - ((n : K) - 1) * computePolynomial x (n - 2)) / (n : K) := by
  refine ⟨rfl, rfl, ?_⟩
  rcases hn with rfl | rfl
  · simp only [computePolynomial]
    norm_num
    ring
  · simp only [computePolynomial]
    norm_num
    ring

/-- C11 at degree 3 and `x = 1 / 2`. -/
theorem computePolynomial_legendre_witness :
    computePolynomial (1 / 2 : ℚ) 3 =
      ((2 * ((3 : Nat) : ℚ) - 1) * (1 / 2) * computePolynomial (1 / 2 : ℚ) (3 - 1)
        - (((3 : Nat) : ℚ) - 1) * computePolynomial (1 / 2 : ℚ) (3 - 2)) / ((3 : Nat) : ℚ) :=
  (computePolynomial_legendre (1 / 2 : ℚ) 3 (Or.inr rfl)).2.2

/-- C14: for `a < b`, when the loop is left with counter `n` the value returned is the composite
trapezoid rule `H * (f a / 2 + f b / 2 + ∑_{i = 1}^{N - 1} f (a + i * H))` with `N = 2 ^ (n - 1)`
and `H = (b - a) / N`; every node `a + i * H`, `0 ≤ i ≤ N`, lies in `[a, b]`, and the result is
the same for any rate that agrees with `f` on `[a, b]`. -/
theorem trapezoidalRule_composite (f : K → K) (a b tol : K) (max_refinements : Nat)
    (hab : a < b) :
    ∃ n : Nat, (exitState f a b tol max_refinements).iteration_number = n ∧
      trapezoidalRule f a b tol max_refinements =
        Except.ok (compositeTrapezoid f a b (2 ^ (n - 1))) ∧
      (∀ i : Nat, i ≤ 2 ^ (n - 1) →
        a ≤ a + (i : K) * ((b - a) / ((2 ^ (n - 1) : Nat) : K)) ∧
        a + (i : K) * ((b - a) / ((2 ^ (n - 1) : Nat) : K)) ≤ b) ∧
      (∀ g : K → K, (∀ x, a ≤ x → x ≤ b → g x = f x) →
        trapezoidalRule g a b tol max_refinements =
          trapezoidalRule f a b tol max_refinements) := by
  have h : ¬ a ≥ b := not_le.mpr hab
  refine ⟨_, rfl, ?_, ?_, ?_⟩
  · simp only [trapezoidalRule, h, if_false]
    rw [(trapInv_exit f a b tol max_refinements).2]
  · intro i hi
    have hN : (0 : K) < ((2 ^ ((exitState f a b tol max_refinements).iteration_number - 1)
        : Nat) : K) := by
      exact_mod_cast Nat.two_pow_pos _
    have hi' : (i : K) ≤ ((2 ^ ((exitState f a b tol max_refinements).iteration_number - 1)
        : Nat) : K) := by
      exact_mod_cast hi
    have hH : 0 < (b - a) / ((2 ^ ((exitState f a b tol max_refinements).iteration_number - 1)
        : Nat) : K) := div_pos (by linarith) hN
    constructor
    · have : 0 ≤ (i : K) * ((b - a) /
          ((2 ^ ((exitState f a b tol max_refinements).iteration_number - 1) : Nat) : K)) :=
        mul_nonneg (Nat.cast_nonneg _) hH.le
      linarith
    · have h1 : (i : K) * ((b - a) /
          ((2 ^ ((exitState f a b tol max_refinements).iteration_number - 1) : Nat) : K)) ≤
          ((2 ^ ((exitState f a b tol max_refinements).iteration_number - 1) : Nat) : K) *
            ((b - a) /
              ((2 ^ ((exitState f a b tol max_refinements).iteration_number - 1) : Nat) : K)) :=
        mul_le_mul_of_nonneg_right hi' hH.le
      rw [mul_div_cancel₀ _ (ne_of_gt hN)] at h1
      linarith
  · intro g hg
    simp only [trapezoidalRule, h, if_false, exitState]
    rw [initState_congr f g a b hab hg,
      whileLoop_congr f g a b tol max_refinements hab hg _ (stepInv_init f a b)]

/-- C14 for the rate `x ↦ x * x` on `[0, 1]`. -/
theorem trapezoidalRule_composite_witness :
    (0 : ℚ) < 1 ∧
    ∃ n : Nat, (exitState (fun x : ℚ => x * x) 0 1 (1 / 1000) 20).iteration_number = n ∧
      trapezoidalRule (fun x : ℚ => x * x) 0 1 (1 / 1000) 20 =
        Except.ok (compositeTrapezoid (fun x : ℚ => x * x) 0 1 (2 ^ (n - 1))) := by
  obtain ⟨n, h1, h2, _⟩ :=
    trapezoidalRule_composite (fun x : ℚ => x * x) 0 1 (1 / 1000) 20 (by norm_num)
  exact ⟨by norm_num, n, h1, h2⟩

/-- C15: for `a < b`, when the loop is left with counter `n`, then `n ≥ 8` and either
`n ≥ max_refinements` or `|I_n - I_{n-1}| ≤ tol * L_n`, where `I_n` is the value returned (the
composite trapezoid rule on `2 ^ (n - 1)` subintervals), `I_{n-1}` the previous estimate
(`interval_0`, the rule on `2 ^ (n - 2)` subintervals) and `L_n` the variable
`interval_length_1`, which is the same rule as `I_n` applied to `|f|`. -/
theorem trapezoidalRule_exit_postcondition (f : K → K) (a b tol : K) (max_refinements : Nat)
    (hab : a < b) :
    ∃ n : Nat, (exitState f a b tol max_refinements).iteration_number = n ∧ 8 ≤ n ∧
      trapezoidalRule f a b tol max_refinements =
        Except.ok (exitState f a b tol max_refinements).interval_1 ∧
      (exitState f a b tol max_refinements).interval_1 =
        compositeTrapezoid f a b (2 ^ (n - 1)) ∧
      (exitState f a b tol max_refinements).interval_0 =
        compositeTrapezoid f a b (2 ^ (n - 2)) ∧
      (exitState f a b tol max_refinements).interval_length_1 =
        compositeTrapezoid (fun x => |f x|) a b (2 ^ (n - 1)) ∧
      (max_refinements ≤ n ∨
        |(exitState f a b tol max_refinements).interval_1
            - (exitState f a b tol max_refinements).interval_0|
          ≤ tol * (exitState f a b tol max_refinements).interval_length_1) := by
  have h : ¬ a ≥ b := not_le.mpr hab
  obtain ⟨htrap, _, hprev, herr⟩ := prevInv_exit f a b tol max_refinements
  have hlen := (lenInv_exit f a b tol max_refinements).2
  have hexit := exit_not_cond f a tol max_refinements (initState f a b)
  refine ⟨_, rfl, exit_counter_ge f a tol max_refinements _, ?_, htrap.2, hprev, hlen, ?_⟩
  · simp only [trapezoidalRule, h, if_false]
  · simp only [loopCond, not_or, not_and, not_lt] at hexit
    by_cases hm : max_refinements ≤ (exitState f a b tol max_refinements).iteration_number
    · exact Or.inl hm
    · right
      have := hexit.2 (not_le.mp hm)
      rw [abs_sub_comm, ← herr]
      exact this

/-- C15 for the rate `x ↦ x * x` on `[0, 1]`. -/
theorem trapezoidalRule_exit_postcondition_witness :
    (0 : ℚ) < 1 ∧
    ∃ n : Nat, (exitState (fun x : ℚ => x * x) 0 1 (1 / 1000) 20).iteration_number = n ∧ 8 ≤ n ∧
      (20 ≤ n ∨
        |(exitState (fun x : ℚ => x * x) 0 1 (1 / 1000) 20).interval_1
            - (exitState (fun x : ℚ => x * x) 0 1 (1 / 1000) 20).interval_0|
          ≤ 1 / 1000 * (exitState (fun x : ℚ => x * x) 0 1 (1 / 1000) 20).interval_length_1) := by
  obtain ⟨n, h1, h2, _, _, _, _, h3⟩ :=
    trapezoidalRule_exit_postcondition (fun x : ℚ => x * x) 0 1 (1 / 1000) 20 (by norm_num)
  exact ⟨by norm_num, n, h1, h2, h3⟩

/-- C16: for `a < b`, every `tol` and every `max_refinements`, `trapezoidalRule` returns after
a number `N` of passes through the loop body with `6 ≤ N ≤ max 8 max_refinements - 2`: the
counter starts at `2`, is `2 + N` after `N` passes, the loop condition holds before each pass
and fails after the last, and it fails in every state whose counter has reached
`max 8 max_refinements`. -/
theorem trapezoidalRule_terminates (f : K → K) (a b tol : K) (max_refinements : Nat)
    (hab : a < b) :
    ∃ N : Nat, 6 ≤ N ∧ N ≤ max 8 max_refinements - 2 ∧
      exitState f a b tol max_refinements = (loopBody f a)^[N] (initState f a b) ∧
      (∀ i, i < N → loopCond tol max_refinements ((loopBody f a)^[i] (initState f a b))) ∧
      ¬ loopCond tol max_refinements ((loopBody f a)^[N] (initState f a b)) ∧
      (initState f a b).iteration_number = 2 ∧
      (∀ i, ((loopBody f a)^[i] (initState f a b)).iteration_number = 2 + i) ∧
      (∀ s : TrapState K, max 8 max_refinements ≤ s.iteration_number →
        ¬ loopCond tol max_refinements s) ∧
      trapezoidalRule f a b tol max_refinements =
        Except.ok ((loopBody f a)^[N] (initState f a b)).interval_1 := by
  have h : ¬ a ≥ b := not_le.mpr hab
  obtain ⟨N, hN, hpre, hpost⟩ := whileLoop_iterate f a tol max_refinements (initState f a b)
  have hcount : ∀ i, ((loopBody f a)^[i] (initState f a b)).iteration_number = 2 + i :=
    fun i => iterate_counter f a (initState f a b) i
  have hge := exit_counter_ge f a tol max_refinements (initState f a b)
  have hle := exit_counter_le f a tol max_refinements (initState f a b) (by simp [initState])
  rw [hN, hcount N] at hge hle
  refine ⟨N, by omega, by omega, hN, hpre, hpost, rfl, hcount, ?_, ?_⟩
  · intro s hs hc
    simp only [loopCond] at hc
    omega
  · simp only [trapezoidalRule, h, if_false, exitState]
    rw [hN]

/-- C16 with a negative tolerance, for the rate `x ↦ x * x` on `[0, 1]` and twelve
refinements. -/
theorem trapezoidalRule_terminates_witness :
    (0 : ℚ) < 1 ∧
    ∃ N : Nat, 6 ≤ N ∧ N ≤ max 8 12 - 2 ∧
      exitState (fun x : ℚ => x * x) 0 1 (-1) 12 =
        (loopBody (fun x : ℚ => x * x) 0)^[N] (initState (fun x : ℚ => x * x) 0 1) := by
  obtain ⟨N, h1, h2, h3, _⟩ :=
    trapezoidalRule_terminates (fun x : ℚ => x * x) 0 1 (-1) 12 (by norm_num)
  exact ⟨by norm_num, N, h1, h2, h3⟩

end Theorems

end Moose
